import Mathlib

/-!
Verification of the etmam-report pipeline (src/analysis.py, src/ppt_fill.py).

A shallow embedding: strings are `String` / `List Char`; timestamps are
integers at whole-second resolution (the spreadsheet library's parsed
timestamps, with a failed parse embedded as `none`); dataframes are lists
of records.  Every definition is translated from the Python source; the
relevant source function is named in each doc comment.
-/

namespace Etmam

/-- Whitespace recognizer: models the whitespace class used by Python's
`str.strip`, `str.split` and the regex class in `_norm_ar` (ASCII range,
which covers the inputs of this pipeline). -/
def isWsCh (c : Char) : Bool :=
  c == ' ' || c == '\t' || c == '\n' || c == '\r' || c == Char.ofNat 11 || c == Char.ofNat 12

/-- The letter-variant folding of `_norm_ar` (analysis.py lines 41-47 and
ppt_fill.py lines 16-22): the five sequential single-character
`str.replace` calls compose into one character map, since no replacement
output is itself a later pattern. -/
def foldCh (c : Char) : Char :=
  if c == 'أ' then 'ا'
  else if c == 'إ' then 'ا'
  else if c == 'آ' then 'ا'
  else if c == 'ى' then 'ي'
  else if c == 'ة' then 'ه'
  else c

/-- Leading-whitespace removal, first half of Python `str.strip`. -/
def dropLeadWs (l : List Char) : List Char := l.dropWhile (fun c => isWsCh c)

/-- Trailing-whitespace removal, second half of Python `str.strip`. -/
def dropTrailWs (l : List Char) : List Char := (l.reverse.dropWhile (fun c => isWsCh c)).reverse

/-- Python `str.strip`: remove outer whitespace on both ends. -/
def stripCh (l : List Char) : List Char := dropTrailWs (dropLeadWs l)

/-- Worker for whitespace-run collapse; the flag records whether the
previous emitted position was inside a whitespace run. -/
def collapseAux : Bool → List Char → List Char
  | _, [] => []
  | pw, c :: r =>
    if isWsCh c then
      if pw then collapseAux true r else ' ' :: collapseAux true r
    else c :: collapseAux false r

/-- The regex substitution in `_norm_ar` (line 48 / 23):
every maximal whitespace run becomes one space. -/
def collapseWs (l : List Char) : List Char := collapseAux false l

/-- Python `str.replace` for a two-character pattern replaced by one
character: non-overlapping, left to right, no rescan of the output. -/
def replace2 (a b c : Char) : List Char → List Char
  | [] => []
  | [x] => [x]
  | x :: y :: r =>
    if x == a && y == b then c :: replace2 a b c r
    else x :: replace2 a b c (y :: r)

/-- `_norm_ar` (analysis.py lines 37-50, ppt_fill.py lines 12-25, the two
copies are textually identical): strip, fold letter variants, collapse
whitespace, then delete the space before and after a dash. -/
def normList (l : List Char) : List Char :=
  replace2 '-' ' ' '-' (replace2 ' ' '-' '-' (collapseWs ((stripCh l).map foldCh)))

/-- `_norm_ar` on `String` (the Python function; non-string input, which
returns "", does not arise in the typed embedding). -/
def norm_ar (s : String) : String := String.mk (normList s.data)

/-- Does `p` occur at the start of `l`?  (Python slice comparison.) -/
def startsCh : List Char → List Char → Bool
  | [], _ => true
  | _ :: _, [] => false
  | p :: ps, c :: cs => p == c && startsCh ps cs

/-- Python's `pat in s` substring test, on character lists. -/
def hasSubCh (p : List Char) : List Char → Bool
  | [] => p.isEmpty
  | c :: r => startsCh p (c :: r) || hasSubCh p r

/-- Substring test on strings: `hasStr s pat` models Python `pat in s`. -/
def hasStr (s pat : String) : Bool := hasSubCh pat.data s.data

/-- `STATUS_CANON` (analysis.py lines 24-31): the fixed ordered
six-member canonical status set. -/
def STATUS_CANON : List String :=
  ["انتظار الاستجابة - مقاول",
   "انتظار الاستجابة - مراقب",
   "انتظار الاستجابة - مشرف",
   "قيد التنفيذ - مراقب",
   "قيد التنفيذ - مقاول",
   "معلق - اعادة فتح"]

/-- `SLA_ORDER` (analysis.py line 32): the three ordered SLA buckets. -/
def SLA_ORDER : List String := ["لم تتجاوز", "قارب على تجاوز SLA", "تجاوز SLA"]

/-- `ALLOWED_SOURCES` (analysis.py line 34): the four-member canonical
source set (a Python set, modeled as a duplicate-free list). -/
def ALLOWED_SOURCES : List String := ["Urbi", "تطبيق بلدي", "توكلنا", "مراكز الاتصال"]

/-- Trigger of the first `canon_status` branch (line 55). -/
def waitTrigB (s : List Char) : Bool :=
  hasSubCh "انتظار".data s && hasSubCh "استجابه".data s

/-- Trigger of the second `canon_status` branch (line 62). -/
def progTrigB (s : List Char) : Bool :=
  (hasSubCh "قيد".data s && hasSubCh "التنفيذ".data s)
    || (hasSubCh "التنفيذ".data s && (hasSubCh "قيد".data s || hasSubCh "جاري".data s))

/-- Trigger of the third `canon_status` branch (line 67). -/
def suspTrigB (s : List Char) : Bool :=
  hasSubCh "معلق".data s
    && (hasSubCh "اعاده فتح".data s || hasSubCh "اعادة فتح".data s || hasSubCh "فتح".data s)

/-- `canon_status` (analysis.py lines 53-69).  The Python nested
conditionals are flattened into a guard chain with identical semantics:
a nested `return` fires exactly when its outer trigger and its own actor
check hold, and control reaches a later branch exactly when no earlier
`return` fired.  (Python binds `s = _norm_ar(raw)` once; the pure
recomputation of `normList raw` below is identical.) -/
def canon_statusL (raw : List Char) : List Char :=
  if waitTrigB (normList raw) && hasSubCh "مقاول".data (normList raw) then
    "انتظار الاستجابة - مقاول".data
  else if waitTrigB (normList raw) && hasSubCh "مراقب".data (normList raw) then
    "انتظار الاستجابة - مراقب".data
  else if waitTrigB (normList raw) && hasSubCh "مشرف".data (normList raw) then
    "انتظار الاستجابة - مشرف".data
  else if progTrigB (normList raw) && hasSubCh "مراقب".data (normList raw) then
    "قيد التنفيذ - مراقب".data
  else if progTrigB (normList raw) && hasSubCh "مقاول".data (normList raw) then
    "قيد التنفيذ - مقاول".data
  else if suspTrigB (normList raw) then "معلق - اعادة فتح".data
  else raw

/-- `canon_status` on `String`. -/
def canon_status (raw : String) : String := String.mk (canon_statusL raw.data)

/-- `canon_source` (analysis.py lines 72-82).  `s.lower()` is modeled
with `Char.toLower`, which agrees with Python on the ASCII letters of
"Urbi" and is the identity on Arabic. -/
def canon_sourceL (x : List Char) : List Char :=
  if hasSubCh "urbi".data ((normList x).map Char.toLower) then "Urbi".data
  else if hasSubCh "بلدي".data (normList x) then "تطبيق بلدي".data
  else if hasSubCh "توكلنا".data (normList x) then "توكلنا".data
  else if (hasSubCh "مراكز".data (normList x) && hasSubCh "اتصال".data (normList x))
            || (hasSubCh "مركز".data (normList x) && hasSubCh "اتصال".data (normList x)) then
    "مراكز الاتصال".data
  else x

/-- `canon_source` on `String`. -/
def canon_source (x : String) : String := String.mk (canon_sourceL x.data)

/-- One input spreadsheet row, with the fields the pipeline reads.
`created` is the parsed creation timestamp in whole seconds
(`parse_created_col` output; `none` when both parse attempts fail);
`newClass` is the optional "التصنيف الجديد" cell (`none` when the column
is absent). -/
structure RawRecord where
  id : String
  admin : String
  status : String
  source : String
  created : Option Int
  newClass : Option String
deriving DecidableEq

/-- One surviving preprocessed row (the derived columns of `preprocess`
that the aggregates read). -/
structure ProcRecord where
  admin : String
  statusCanon : String
  sourceCanon : String
  hours : Int
  createdParsed : Bool
  sla : String
deriving DecidableEq

/-- Elapsed whole hours (analysis.py lines 159-163): `closing − creation`
in seconds, `NaN` filled with 0, floor-divided by 3600.  A failed parse
(`NaT` elapsed) therefore yields 0 hours. -/
def hoursOf (closedTs : Int) (created : Option Int) : Int :=
  match created with
  | none => 0
  | some t => Int.fdiv (closedTs - t) 3600

/-- SLA bucketing (analysis.py lines 174-177): `np.select` over
`[h < 72, 72 ≤ h ≤ 95]` with default "تجاوز SLA". -/
def slaOf (h : Int) : String :=
  if h < 72 then "لم تتجاوز"
  else if 72 ≤ h ∧ h ≤ 95 then "قارب على تجاوز SLA"
  else "تجاوز SLA"

/-- The per-row part of `preprocess` (analysis.py lines 134-178): the
bad-classification row filter, the derived hour and SLA columns, the
status-canonicalization filter and the source-canonicalization filter.
Returns `none` exactly when the row is dropped.  (The column drops of
lines 116-127 and the provenance counter columns of lines 145-147 touch
no field read by the aggregates and are not modeled.) -/
def processOneKept (closedTs : Int) (r : RawRecord) : Option ProcRecord :=
  let st := canon_status r.status
  if st ∈ STATUS_CANON then
    let src := canon_source r.source
    if src ∈ ALLOWED_SOURCES then
      let h := hoursOf closedTs r.created
      some { admin := r.admin, statusCanon := st, sourceCanon := src,
             hours := h, createdParsed := r.created.isSome, sla := slaOf h }
    else none
  else none

/-- The bad-classification filter of `preprocess` (lines 134-140) in
front of `processOneKept`. -/
def processOne (closedTs : Int) (r : RawRecord) : Option ProcRecord :=
  match r.newClass with
  | some v =>
    if norm_ar v == norm_ar "السيارات التالفة" then none
    else processOneKept closedTs r
  | none => processOneKept closedTs r

/-- `preprocess` (analysis.py lines 115-180) at the row level: the rows
surviving all filters, with their derived columns. -/
def preprocess (closedTs : Int) (rs : List RawRecord) : List ProcRecord :=
  rs.filterMap (processOne closedTs)

/-- Order-preserving deduplication worker (first occurrence kept). -/
def ordDedupAux (seen : List String) : List String → List String
  | [] => []
  | x :: r => if seen.contains x then ordDedupAux seen r else x :: ordDedupAux (x :: seen) r

/-- Order-preserving deduplication: the distinct group keys of a pandas
`groupby`, and the `seen` bookkeeping of `_match_admin_indices`.
(pandas sorts group keys; key order is immaterial to every claim, so the
appearance order is kept.) -/
def ordDedup (l : List String) : List String := ordDedupAux [] l

/-- A pivot table (analysis.py `pivots`): one count row per observed
administrative unit, one count per column, plus the grand-total row
appended at construction (`p.loc["الإجمالي الكلي"] = p.sum(axis=0)`). -/
structure Pivot where
  cols : List String
  rows : List (String × List Nat)
  total : List Nat
deriving DecidableEq

/-- The count of one pivot cell: records of unit `a` whose category
(under `f`) is `c`. -/
def cellCount (rs : List ProcRecord) (f : ProcRecord → String) (a c : String) : Nat :=
  (rs.filter (fun r => r.admin == a && f r == c)).length

/-- `groupby(...).count().unstack(...).reindex(columns=cols, fill_value=0)`
followed by the grand-total row (analysis.py lines 185-201, 217-222):
rows are the observed units, columns the given category list, the total
row the column-wise sum of the unit rows. -/
def pivotOf (rs : List ProcRecord) (cols : List String) (f : ProcRecord → String) : Pivot :=
  let admins := ordDedup (rs.map (fun r => r.admin))
  let rows := admins.map (fun a => (a, cols.map (fun c => cellCount rs f a c)))
  let total := (rows.map (fun row => row.2)).foldl
    (fun acc v => List.zipWith (· + ·) acc v) (List.replicate cols.length 0)
  ⟨cols, rows, total⟩

/-- `df_all[df_all[COL_SOURCE] != "Urbi"]` (analysis.py lines 209, 238). -/
def df_ar (ps : List ProcRecord) : List ProcRecord :=
  ps.filter (fun r => !(r.sourceCanon == "Urbi"))

/-- `df_all[df_all[COL_SOURCE] == "Urbi"]` (analysis.py lines 212, 241). -/
def df_urbi (ps : List ProcRecord) : List ProcRecord :=
  ps.filter (fun r => r.sourceCanon == "Urbi")

/-- The status pivot `p_open` of `pivots` (lines 185-192). -/
def p_open (rs : List ProcRecord) : Pivot :=
  pivotOf rs STATUS_CANON (fun r => r.statusCanon)

/-- The SLA pivot `p_sla` of `pivots` (lines 194-201). -/
def p_sla (rs : List ProcRecord) : Pivot :=
  pivotOf rs SLA_ORDER (fun r => r.sla)

/-- The three possible shapes of the channel-specific ("Urbi") result. -/
inductive UrbiOut where
  | placeholder (col : String) (val : String)
  | emptyTable
  | table (p : Pivot)
deriving DecidableEq

/-- The Urbi pivot grouped by unit (lines 217-223 / 245-251): columns are
the observed canonical sources of the Urbi rows. -/
def urbiPivot (ps : List ProcRecord) : Pivot :=
  pivotOf (df_urbi ps) (ordDedup ((df_urbi ps).map (fun r => r.sourceCanon)))
    (fun r => r.sourceCanon)

/-- The channel-specific result of `build` (analysis.py lines 212-224):
a one-cell placeholder frame when no Urbi row survives. -/
def build_p_urbi (ps : List ProcRecord) : UrbiOut :=
  if (df_urbi ps).isEmpty then UrbiOut.placeholder "ملاحظة" "لا توجد بلاغات Urbi"
  else UrbiOut.table (urbiPivot ps)

/-- The channel-specific result of `get_pivots_for_ppt` (analysis.py
lines 241-251): a bare empty frame (`pd.DataFrame()`) when no Urbi row
survives. -/
def ppt_p_urbi (ps : List ProcRecord) : UrbiOut :=
  if (df_urbi ps).isEmpty then UrbiOut.emptyTable
  else UrbiOut.table (urbiPivot ps)

/-- Python `str.split()` worker: split on whitespace runs, dropping empty
tokens; `acc` holds the current token reversed. -/
def splitWsAux (acc : List Char) : List Char → List (List Char)
  | [] => if acc.isEmpty then [] else [acc.reverse]
  | c :: r =>
    if isWsCh c then
      if acc.isEmpty then splitWsAux [] r else acc.reverse :: splitWsAux [] r
    else splitWsAux (c :: acc) r

/-- Python `str.split()` (no argument): whitespace tokenization. -/
def splitWs (l : List Char) : List (List Char) := splitWsAux [] l

/-- The stop-word set of `_keywords` (ppt_fill.py lines 30-37). -/
def stopList : List (List Char) :=
  ["الاداره".data, "اداره".data, "الادارة".data,
   "العامه".data, "عامه".data, "العامة".data,
   "بلديه".data, "بلدية".data,
   "امانه".data, "امانة".data,
   "مدينه".data, "مدينة".data, "المدينه".data,
   "منطقه".data, "منطقة".data, "المنطقه".data]

/-- The token prefix-stripping of `_keywords` (ppt_fill.py lines 42-47). -/
def stripTok (t : List Char) : List Char :=
  if startsCh "لل".data t && decide (t.length > 2) then t.drop 2
  else if startsCh "ال".data t && decide (t.length > 2) then t.drop 2
  else if startsCh "ل".data t && decide (t.length > 2) then t.drop 1
  else t

/-- `_keywords` (ppt_fill.py lines 28-50): normalize, split on
whitespace, strip article prefixes, drop stop words.  Python returns a
`set`; the embedding returns the token list and compares it with set
semantics (`kwSubB` / `kwEqB` below). -/
def keywordsL (s : List Char) : List (List Char) :=
  (splitWs (normList s)).filterMap (fun t =>
    if t.isEmpty then none
    else
      let t2 := stripTok t
      if !t2.isEmpty && !(stopList.contains t2) then some t2 else none)

/-- Python `set.issubset` on keyword lists. -/
def kwSubB (a b : List (List Char)) : Bool := a.all (fun t => b.contains t)

/-- Python `set` equality on keyword lists. -/
def kwEqB (a b : List (List Char)) : Bool := kwSubB a b && kwSubB b a

/-- Trigger of the municipality-plus-direction special case
(`is_muni and (is_south or is_north or is_center)`, ppt_fill.py
lines 188-191, 209). -/
def muniTrigB (s : List Char) : Bool :=
  (hasSubCh "بلديه".data s || hasSubCh "بلدية".data s)
    && (hasSubCh "جنوب".data s || hasSubCh "شمال".data s || hasSubCh "وسط".data s)

/-- Candidate condition of the municipality-plus-direction rule
(ppt_fill.py lines 210-227). -/
def muniCandB (s n : List Char) : Bool :=
  (hasSubCh "جنوب".data s && hasSubCh "جنوب".data n
     && (hasSubCh "تعمير".data n || (hasSubCh "رقابه".data n && hasSubCh "الخدمات".data n)))
  || (hasSubCh "شمال".data s && hasSubCh "شمال".data n
     && (hasSubCh "تعمير".data n || (hasSubCh "رقابه".data n && hasSubCh "الخدمات".data n)))
  || (hasSubCh "وسط".data s && hasSubCh "وسط".data n
     && (hasSubCh "تعمير".data n || (hasSubCh "رقابه".data n && hasSubCh "الخدمات".data n)))

/-- `is_main_clean` (ppt_fill.py lines 193-197). -/
def mainCleanTrigB (s : List Char) : Bool :=
  (hasSubCh "النظافه".data s || hasSubCh "النظافة".data s)
    && (hasSubCh "اداره".data s || hasSubCh "الاداره".data s || hasSubCh "الادارة".data s)
    && (hasSubCh "عامه".data s || hasSubCh "العامه".data s || hasSubCh "العامة".data s)

/-- `is_main_projects` (ppt_fill.py lines 199-203). -/
def mainProjTrigB (s : List Char) : Bool :=
  hasSubCh "مشاريع".data s
    && (hasSubCh "اداره".data s || hasSubCh "الاداره".data s || hasSubCh "الادارة".data s)
    && (hasSubCh "عامه".data s || hasSubCh "العامه".data s || hasSubCh "العامة".data s)

/-- The generic fallback conditions of the matcher loop (ppt_fill.py
lines 250-255): exact normalized equality, keyword-set equality, or
keyword-set inclusion either way. -/
def genericB (s n : List Char) (kws kwn : List (List Char)) : Bool :=
  n == s || kwEqB kwn kws || kwSubB kwn kws || kwSubB kws kwn

/-- The loop body of `_match_admin_indices` (ppt_fill.py lines 205-256)
for one candidate `name`: `true` exactly when the Python loop appends
`name` to `matches`.  The Python `continue`-structured rules become a
guard chain with identical semantics: the municipality branch is
exclusive (its `else` is never reached once it triggers), the remaining
special rules fall through to the later checks when their candidate
condition fails. -/
def matchNameB (s : List Char) (kws : List (List Char)) (name : List Char) : Bool :=
  if muniTrigB s then muniCandB s (normList name)
  else if mainCleanTrigB s
          && (hasSubCh "النظافه".data (normList name)
              || hasSubCh "النظافة".data (normList name)) then true
  else if mainProjTrigB s && hasSubCh "مشاريع".data (normList name) then true
  else if (hasSubCh "تشغيل".data s && hasSubCh "صيان".data s)
            && ((hasSubCh "تشغيل".data (normList name) && hasSubCh "صيان".data (normList name))
                 || hasSubCh "اناره".data (normList name)
                 || hasSubCh "انارة".data (normList name)) then true
  else if (hasSubCh "الاصحاح".data s && hasSubCh "البيئي".data s)
            && (hasSubCh "الاصحاح".data (normList name)
                && hasSubCh "البيئي".data (normList name)) then true
  else genericB s (normList name) kws (keywordsL (normList name))

/-- The final ordered-dedup loop of `_match_admin_indices` (ppt_fill.py
lines 258-264): first occurrences of matched names, in candidate order. -/
def pickOrdered (ms : List String) (seen : List String) : List String → List String
  | [] => []
  | x :: r =>
    if ms.contains x && !(seen.contains x) then x :: pickOrdered ms (x :: seen) r
    else pickOrdered ms seen r

/-- `_match_admin_indices` (ppt_fill.py lines 182-264). -/
def match_admin_indices (adminInSlide : String) (allAdmins : List String) : List String :=
  let s := normList adminInSlide.data
  let kws := keywordsL s
  let ms := allAdmins.filter (fun name => matchNameB s kws name.data)
  pickOrdered ms [] allAdmins

/-! Proof-infrastructure predicates for the idempotence of `normList`:
the normal-form invariant of its output. -/

/-- No two adjacent whitespace characters. -/
def noWsWs : List Char → Bool
  | [] => true
  | [_] => true
  | x :: y :: r => !(isWsCh x && isWsCh y) && noWsWs (y :: r)

/-- No adjacent occurrence of the two-character pattern `[a, b]`. -/
def noPairOf (a b : Char) : List Char → Bool
  | [] => true
  | [_] => true
  | x :: y :: r => !(x == a && y == b) && noPairOf a b (y :: r)

/-- Every whitespace character is a plain space. -/
def wsOnlySpace (l : List Char) : Bool := l.all (fun c => !isWsCh c || c == ' ')

/-- No character that `foldCh` would rewrite. -/
def noFoldables (l : List Char) : Bool := l.all (fun c => foldCh c == c)

/-- The first character, if any, is not whitespace. -/
def headNotWs : List Char → Bool
  | [] => true
  | c :: _ => !isWsCh c

/-- The last character, if any, is not whitespace. -/
def lastNotWs : List Char → Bool
  | [] => true
  | [c] => !isWsCh c
  | _ :: c :: r => lastNotWs (c :: r)

/-- The normal-form invariant satisfied by every `normList` output, and
on which `normList` is the identity. -/
def normalizedP (l : List Char) : Bool :=
  noFoldables l && wsOnlySpace l && noWsWs l
    && noPairOf ' ' '-' l && noPairOf '-' ' ' l && headNotWs l && lastNotWs l

/-! Concrete sample records for witnesses and counterexamples. -/

/-- A row that survives every filter (canonical status and source). -/
def rGood : RawRecord :=
  { id := "1", admin := "بلديه الروضه", status := "انتظار الاستجابة - مقاول",
    source := "توكلنا", created := some 3600, newClass := none }

/-- A row with an unrecognized status (dropped by the status filter). -/
def rBad : RawRecord :=
  { id := "2", admin := "بلديه الروضه", status := "مغلق",
    source := "توكلنا", created := some 0, newClass := none }

/-- A surviving row whose creation timestamp failed to parse. -/
def rUndef : RawRecord :=
  { id := "3", admin := "بلديه الروضه", status := "انتظار الاستجابة - مقاول",
    source := "توكلنا", created := none, newClass := none }

/-- A surviving row whose canonical source is the distinguished channel. -/
def rUrbi : RawRecord :=
  { id := "4", admin := "بلديه الروضه", status := "قيد التنفيذ - مراقب",
    source := "Urbi", created := some 0, newClass := none }

/-- The preprocessed form of `rGood` at closing time 7200. -/
def pGood : ProcRecord :=
  { admin := "بلديه الروضه", statusCanon := "انتظار الاستجابة - مقاول",
    sourceCanon := "توكلنا", hours := 1, createdParsed := true, sla := "لم تتجاوز" }

/-! ## Helper lemmas -/

theorem slaOf_lt {h : Int} (hh : h < 72) : slaOf h = "لم تتجاوز" := by
  unfold slaOf
  rw [if_pos hh]

theorem slaOf_mid {h : Int} (h1 : 72 ≤ h) (h2 : h ≤ 95) : slaOf h = "قارب على تجاوز SLA" := by
  unfold slaOf
  rw [if_neg (by omega), if_pos ⟨h1, h2⟩]

theorem slaOf_hi {h : Int} (h1 : 95 < h) : slaOf h = "تجاوز SLA" := by
  unfold slaOf
  rw [if_neg (by omega), if_neg (by omega)]

theorem slaOf_mem (h : Int) : slaOf h ∈ SLA_ORDER := by
  unfold slaOf SLA_ORDER
  split
  · simp
  · split <;> simp

/-- Floor characterization of the elapsed-hours computation. -/
theorem hoursOf_some_bounds (ts t : Int) :
    3600 * hoursOf ts (some t) ≤ ts - t ∧ ts - t < 3600 * (hoursOf ts (some t) + 1) := by
  simp only [hoursOf]
  rw [Int.fdiv_eq_ediv _ (by norm_num)]
  have h1 := Int.ediv_add_emod (ts - t) 3600
  have h2 := Int.emod_nonneg (ts - t) (by norm_num : (3600 : Int) ≠ 0)
  have h3 := Int.emod_lt_of_pos (ts - t) (by norm_num : (0 : Int) < 3600)
  omega

/-- Full characterization of a kept row. -/
theorem processOne_some_eq {ts : Int} {r : RawRecord} {p : ProcRecord}
    (h : processOne ts r = some p) :
    canon_status r.status ∈ STATUS_CANON ∧ canon_source r.source ∈ ALLOWED_SOURCES ∧
    p = { admin := r.admin, statusCanon := canon_status r.status,
          sourceCanon := canon_source r.source, hours := hoursOf ts r.created,
          createdParsed := r.created.isSome, sla := slaOf (hoursOf ts r.created) } := by
  have hk : processOneKept ts r = some p := by
    cases hnc : r.newClass with
    | none => simpa only [processOne, hnc] using h
    | some v =>
      simp only [processOne, hnc] at h
      by_cases hb : (norm_ar v == norm_ar "السيارات التالفة") = true
      · rw [if_pos hb] at h; cases h
      · rw [if_neg hb] at h; exact h
  unfold processOneKept at hk
  by_cases h1 : canon_status r.status ∈ STATUS_CANON
  · rw [if_pos h1] at hk
    by_cases h2 : canon_source r.source ∈ ALLOWED_SOURCES
    · rw [if_pos h2] at hk
      exact ⟨h1, h2, (Option.some_injective _ hk).symm⟩
    · rw [if_neg h2] at hk; cases hk
  · rw [if_neg h1] at hk; cases hk

/-- A row whose status or source fails to canonicalize is dropped. -/
theorem processOne_none_of_bad {ts : Int} {r : RawRecord}
    (h : canon_status r.status ∉ STATUS_CANON ∨ canon_source r.source ∉ ALLOWED_SOURCES) :
    processOne ts r = none := by
  have hk : processOneKept ts r = none := by
    unfold processOneKept
    rcases h with h | h
    · rw [if_neg h]
    · by_cases h1 : canon_status r.status ∈ STATUS_CANON
      · rw [if_pos h1, if_neg h]
      · rw [if_neg h1]
  cases hnc : r.newClass with
  | none => simpa only [processOne, hnc] using hk
  | some v =>
    simp only [processOne, hnc]
    by_cases hb : (norm_ar v == norm_ar "السيارات التالفة") = true
    · rw [if_pos hb]
    · rw [if_neg hb]; exact hk

theorem preprocess_mem {ts : Int} {rs : List RawRecord} {p : ProcRecord}
    (h : p ∈ preprocess ts rs) : ∃ r ∈ rs, processOne ts r = some p := by
  simpa [preprocess, List.mem_filterMap] using h

/-! ## Claim C1 -/

/-- C1 (counterexample): a surviving record whose creation timestamp
failed to parse (undefined elapsed) is bucketed "لم تتجاوز" (within
SLA), not "تجاوز SLA" (breached) as the claim states: the code fills the
undefined elapsed with 0 seconds before flooring. -/
theorem c1_counterexample :
    rUndef.created = none
    ∧ (preprocess 0 [rUndef]).map (fun p => p.sla) = ["لم تتجاوز"]
    ∧ (preprocess 0 [rUndef]).map (fun p => p.sla) ≠ ["تجاوز SLA"] := by
  refine ⟨rfl, by decide, by decide⟩

/-- C1 (amended): for every record whose elapsed time is undefined the
derived hours are coerced to 0 and the SLA bucket is "within SLA"; in
general the bucket is "within SLA" when hours < 72, "approaching breach"
for 72-95 inclusive, and "breached" when hours exceed 95. -/
theorem c1_sla_buckets (ts : Int) (r : RawRecord) (h : Int) :
    (r.created = none → hoursOf ts r.created = 0 ∧ slaOf (hoursOf ts r.created) = "لم تتجاوز")
    ∧ (h < 72 → slaOf h = "لم تتجاوز")
    ∧ (72 ≤ h → h ≤ 95 → slaOf h = "قارب على تجاوز SLA")
    ∧ (95 < h → slaOf h = "تجاوز SLA") := by
  refine ⟨fun hc => ?_, fun hh => slaOf_lt hh, fun h1 h2 => slaOf_mid h1 h2,
    fun hh => slaOf_hi hh⟩
  rw [hc]
  exact ⟨rfl, by simp only [hoursOf]; decide⟩

/-- C1 witness: the amended theorem applied at concrete inputs. -/
theorem c1_sla_buckets_witness :
    (hoursOf 5 rUndef.created = 0 ∧ slaOf (hoursOf 5 rUndef.created) = "لم تتجاوز")
    ∧ slaOf 50 = "لم تتجاوز" ∧ slaOf 80 = "قارب على تجاوز SLA" ∧ slaOf 100 = "تجاوز SLA" :=
  ⟨(c1_sla_buckets 5 rUndef 0).1 rfl,
   (c1_sla_buckets 5 rUndef 50).2.1 (by decide),
   (c1_sla_buckets 5 rUndef 80).2.2.1 (by decide) (by decide),
   (c1_sla_buckets 5 rUndef 100).2.2.2 (by decide)⟩

/-! ## Claim C2 -/

/-- C2: every record present in any aggregate (all aggregates draw their
rows from `preprocess` output, restricted by the `df_ar`/`df_urbi`
channel filters) has canonical status in the fixed six-member set and
canonical source in the fixed four-member set; a record whose raw status
or raw source does not canonicalize into the respective set is dropped
by `processOne` and is therefore absent from every aggregate. -/
theorem c2_aggregate_membership (ts : Int) (rs : List RawRecord) :
    (∀ p ∈ preprocess ts rs, p.statusCanon ∈ STATUS_CANON ∧ p.sourceCanon ∈ ALLOWED_SOURCES)
    ∧ (∀ p : ProcRecord, p ∈ df_ar (preprocess ts rs) ∨ p ∈ df_urbi (preprocess ts rs) →
        p ∈ preprocess ts rs)
    ∧ (∀ r : RawRecord,
        canon_status r.status ∉ STATUS_CANON ∨ canon_source r.source ∉ ALLOWED_SOURCES →
        processOne ts r = none) := by
  refine ⟨fun p hp => ?_, fun p hp => ?_, fun r hr => processOne_none_of_bad hr⟩
  · obtain ⟨r, _, hr⟩ := preprocess_mem hp
    obtain ⟨h1, h2, hpe⟩ := processOne_some_eq hr
    subst hpe
    exact ⟨h1, h2⟩
  · rcases hp with hp | hp
    · exact List.mem_of_mem_filter hp
    · exact List.mem_of_mem_filter hp

/-- C2 witness: the theorem applied at a concrete survivor and a
concrete dropped record. -/
theorem c2_aggregate_membership_witness :
    (pGood.statusCanon ∈ STATUS_CANON ∧ pGood.sourceCanon ∈ ALLOWED_SOURCES)
    ∧ processOne 7200 rBad = none :=
  ⟨(c2_aggregate_membership 7200 [rGood, rBad]).1 pGood (by decide),
   (c2_aggregate_membership 7200 [rGood, rBad]).2.2 rBad (Or.inl (by decide))⟩

/-! ## Claim C3 -/

/-- C3: for a record whose creation timestamp parsed (`created = some t`),
the derived hours are the floor of elapsed seconds over 3600 (stated both
as `Int.fdiv` and by the floor inequalities), the processed row carries
exactly these hours and their bucket, and the bucket thresholds evaluate
as 71 ↦ within, 72 ↦ approaching, 95 ↦ approaching, 96 ↦ breached. -/
theorem c3_hours_floor (ts t : Int) (r : RawRecord) (hc : r.created = some t) :
    (hoursOf ts r.created = Int.fdiv (ts - t) 3600
      ∧ 3600 * hoursOf ts r.created ≤ ts - t
      ∧ ts - t < 3600 * (hoursOf ts r.created + 1))
    ∧ (slaOf 71 = "لم تتجاوز" ∧ slaOf 72 = "قارب على تجاوز SLA"
       ∧ slaOf 95 = "قارب على تجاوز SLA" ∧ slaOf 96 = "تجاوز SLA")
    ∧ (∀ p : ProcRecord, processOne ts r = some p →
        p.hours = Int.fdiv (ts - t) 3600 ∧ p.sla = slaOf p.hours) := by
  rw [hc]
  refine ⟨⟨rfl, hoursOf_some_bounds ts t⟩, ⟨by decide, by decide, by decide, by decide⟩,
    fun p hp => ?_⟩
  obtain ⟨_, _, hpe⟩ := processOne_some_eq hp
  rw [hc] at hpe
  subst hpe
  exact ⟨rfl, rfl⟩

/-- C3 witness: the theorem applied at `rGood` (created second 3600,
closing second 7200, one elapsed hour). -/
theorem c3_hours_floor_witness :
    (hoursOf 7200 rGood.created = Int.fdiv (7200 - 3600) 3600
      ∧ 3600 * hoursOf 7200 rGood.created ≤ 7200 - 3600
      ∧ 7200 - 3600 < 3600 * (hoursOf 7200 rGood.created + 1))
    ∧ (pGood.hours = Int.fdiv (7200 - 3600) 3600 ∧ pGood.sla = slaOf pGood.hours) :=
  ⟨(c3_hours_floor 7200 3600 rGood rfl).1,
   (c3_hours_floor 7200 3600 rGood rfl).2.2 pGood (by decide)⟩

/-! ## Claim C6 -/

/-- C6 (counterexample): on a raw status entering the first branch
(waiting-trigger true) whose actor sub-checks all fail, the classifier
does NOT stop: it falls through to the suspended/reopened branch and
returns its canonical label instead of the original raw string. -/
theorem c6_counterexample :
    waitTrigB (normList "انتظار استجابه معلق فتح".data) = true
    ∧ hasSubCh "مقاول".data (normList "انتظار استجابه معلق فتح".data) = false
    ∧ hasSubCh "مراقب".data (normList "انتظار استجابه معلق فتح".data) = false
    ∧ hasSubCh "مشرف".data (normList "انتظار استجابه معلق فتح".data) = false
    ∧ canon_status "انتظار استجابه معلق فتح" = "معلق - اعادة فتح"
    ∧ canon_status "انتظار استجابه معلق فتح" ≠ "انتظار استجابه معلق فتح" := by
  refine ⟨by decide, by decide, by decide, by decide, by decide, by decide⟩

/-- C6 (amended): at most one classification branch returns (first match
wins); when a branch's trigger condition is entered but its nested actor
sub-checks all fail, evaluation falls through to the later branches; and
when no branch's condition matches, the classifier returns the original
raw, uncanonicalized string. -/
theorem c6_first_match (raw : String) :
    (((waitTrigB (normList raw.data)
         && (hasSubCh "مقاول".data (normList raw.data)
             || hasSubCh "مراقب".data (normList raw.data)
             || hasSubCh "مشرف".data (normList raw.data)))
       || (progTrigB (normList raw.data)
         && (hasSubCh "مراقب".data (normList raw.data)
             || hasSubCh "مقاول".data (normList raw.data)))
       || suspTrigB (normList raw.data)) = false → canon_status raw = raw)
    ∧ (waitTrigB (normList raw.data) = true →
       hasSubCh "مقاول".data (normList raw.data) = false →
       hasSubCh "مراقب".data (normList raw.data) = false →
       hasSubCh "مشرف".data (normList raw.data) = false →
       canon_status raw
         = (if suspTrigB (normList raw.data) then "معلق - اعادة فتح" else raw)) := by
  constructor
  · intro hfalse
    simp only [Bool.or_eq_false_iff, Bool.and_eq_false_iff] at hfalse
    have hsl : canon_statusL raw.data = raw.data := by
      unfold canon_statusL
      rw [if_neg ?h1, if_neg ?h2, if_neg ?h3, if_neg ?h4, if_neg ?h5, if_neg ?h6]
      case h1 => rcases hfalse.1.1 with h | h <;> simp [h]
      case h2 => rcases hfalse.1.1 with h | h <;> simp [h]
      case h3 => rcases hfalse.1.1 with h | h <;> simp [h]
      case h4 => rcases hfalse.1.2 with h | h <;> simp [h]
      case h5 => rcases hfalse.1.2 with h | h <;> simp [h]
      case h6 => simp [hfalse.2]
    unfold canon_status
    rw [hsl]
  · intro hw h1 h2 h3
    unfold canon_status canon_statusL
    rw [if_neg (by simp [h1]), if_neg (by simp [h2]), if_neg (by simp [h3]),
        if_neg (by simp [h2]), if_neg (by simp [h1])]
    by_cases hm : suspTrigB (normList raw.data) = true
    · rw [if_pos hm, if_pos hm]
    · rw [if_neg hm, if_neg hm]

/-- C6 witness: the amended theorem applied at a raw status matching no
branch, and at one exhibiting the fall-through. -/
theorem c6_first_match_witness :
    canon_status "حاله اخري" = "حاله اخري"
    ∧ canon_status "انتظار استجابه معلق فتح" = "معلق - اعادة فتح" := by
  refine ⟨(c6_first_match "حاله اخري").1 (by decide), ?_⟩
  have h := (c6_first_match "انتظار استجابه معلق فتح").2
    (by decide) (by decide) (by decide) (by decide)
  rwa [if_pos (by decide)] at h

/-! ## Claim C9 -/

/-- C9 (counterexample): with zero surviving Urbi records, the slide
path `get_pivots_for_ppt` yields the bare empty frame
(`pd.DataFrame()`), not the single-cell human-readable placeholder that
the workbook path `build` produces. -/
theorem c9_counterexample :
    ppt_p_urbi (preprocess 7200 [rGood]) = UrbiOut.emptyTable
    ∧ build_p_urbi (preprocess 7200 [rGood])
        = UrbiOut.placeholder "ملاحظة" "لا توجد بلاغات Urbi"
    ∧ UrbiOut.emptyTable ≠ UrbiOut.placeholder "ملاحظة" "لا توجد بلاغات Urbi" := by
  refine ⟨by decide, by decide, by decide⟩

/-- C9 (amended): when no surviving record has canonical source "Urbi",
the workbook path `build` produces the single-cell placeholder result,
while the slide path `get_pivots_for_ppt` produces the bare empty table;
both are ordinary total results, not errors. -/
theorem c9_urbi_fallback (ts : Int) (rs : List RawRecord)
    (h : ∀ p ∈ preprocess ts rs, p.sourceCanon ≠ "Urbi") :
    build_p_urbi (preprocess ts rs) = UrbiOut.placeholder "ملاحظة" "لا توجد بلاغات Urbi"
    ∧ ppt_p_urbi (preprocess ts rs) = UrbiOut.emptyTable := by
  have hnil : df_urbi (preprocess ts rs) = [] := by
    rw [df_urbi, List.filter_eq_nil_iff]
    intro p hp
    simpa using h p hp
  unfold build_p_urbi ppt_p_urbi
  rw [hnil]
  exact ⟨rfl, rfl⟩

/-- C9 witness: the amended theorem applied at a concrete input with no
Urbi records. -/
theorem c9_urbi_fallback_witness :
    build_p_urbi (preprocess 7200 [rGood, rBad])
        = UrbiOut.placeholder "ملاحظة" "لا توجد بلاغات Urbi"
    ∧ ppt_p_urbi (preprocess 7200 [rGood, rBad]) = UrbiOut.emptyTable :=
  c9_urbi_fallback 7200 [rGood, rBad] (by decide)

/-! ## Counting infrastructure for the pivot claims -/

theorem zipWith_add_getD (u : List Nat) : ∀ (v : List Nat), u.length = v.length → ∀ i : Nat,
    (List.zipWith (· + ·) u v).getD i 0 = u.getD i 0 + v.getD i 0 := by
  induction u with
  | nil =>
    intro v h i
    cases v with
    | nil => simp
    | cons b v => simp at h
  | cons a u ih =>
    intro v h i
    cases v with
    | nil => simp at h
    | cons b v =>
      cases i with
      | zero => simp
      | succ j => simpa using ih v (by simpa using h) j

theorem zipWith_add_sum (u : List Nat) : ∀ (v : List Nat), u.length = v.length →
    (List.zipWith (· + ·) u v).sum = u.sum + v.sum := by
  induction u with
  | nil =>
    intro v h
    cases v with
    | nil => simp
    | cons b v => simp at h
  | cons a u ih =>
    intro v h
    cases v with
    | nil => simp at h
    | cons b v =>
      simp only [List.zipWith_cons_cons, List.sum_cons, ih v (by simpa using h)]
      omega

theorem replicate_getD (i : Nat) : ∀ n : Nat, (List.replicate n (0 : Nat)).getD i 0 = 0 := by
  induction i with
  | zero => intro n; cases n <;> simp [List.replicate_succ]
  | succ j ih =>
    intro n
    cases n with
    | zero => simp
    | succ m =>
      rw [List.replicate_succ, List.getD_cons_succ]
      exact ih m

theorem foldl_zipWith_getD (n : Nat) (L : List (List Nat)) : ∀ (init : List Nat),
    init.length = n → (∀ v ∈ L, v.length = n) → ∀ i : Nat,
    (L.foldl (fun acc v => List.zipWith (· + ·) acc v) init).getD i 0
      = init.getD i 0 + (L.map (fun v => v.getD i 0)).sum := by
  induction L with
  | nil => intro init _ _ i; simp
  | cons v L ih =>
    intro init hinit hL i
    have hv : v.length = n := hL v (List.mem_cons_self v L)
    have hzlen : (List.zipWith (· + ·) init v).length = n := by
      rw [List.length_zipWith, hinit, hv, Nat.min_self]
    rw [List.foldl_cons, ih _ hzlen (fun w hw => hL w (List.mem_cons_of_mem v hw)) i,
        zipWith_add_getD init v (hinit.trans hv.symm) i]
    simp [Nat.add_assoc]

theorem foldl_zipWith_sum (n : Nat) (L : List (List Nat)) : ∀ (init : List Nat),
    init.length = n → (∀ v ∈ L, v.length = n) →
    (L.foldl (fun acc v => List.zipWith (· + ·) acc v) init).sum
      = init.sum + (L.map (fun v => v.sum)).sum := by
  induction L with
  | nil => intro init _ _; simp
  | cons v L ih =>
    intro init hinit hL
    have hv : v.length = n := hL v (List.mem_cons_self v L)
    have hzlen : (List.zipWith (· + ·) init v).length = n := by
      rw [List.length_zipWith, hinit, hv, Nat.min_self]
    rw [List.foldl_cons, ih _ hzlen (fun w hw => hL w (List.mem_cons_of_mem v hw)),
        zipWith_add_sum init v (hinit.trans hv.symm)]
    simp [Nat.add_assoc]

theorem sum_map_add_distrib {β : Type} (l : List β) (f g : β → Nat) :
    (l.map (fun x => f x + g x)).sum = (l.map f).sum + (l.map g).sum := by
  induction l with
  | nil => simp
  | cons a l ih => simp only [List.map_cons, List.sum_cons, ih]; omega

theorem sum_indicator_zero (v : String) : ∀ (keys : List String), v ∉ keys →
    (keys.map (fun k => if (v == k) = true then 1 else 0)).sum = 0 := by
  intro keys
  induction keys with
  | nil => intro _; simp
  | cons a keys ih =>
    intro hv
    have hne : ¬ (v == a) = true := by
      simp only [beq_iff_eq]
      rintro rfl
      exact hv (List.mem_cons_self v keys)
    simp only [List.map_cons, List.sum_cons, if_neg hne,
      ih (fun h => hv (List.mem_cons_of_mem a h))]

theorem sum_indicator_one (v : String) : ∀ (keys : List String), keys.Nodup → v ∈ keys →
    (keys.map (fun k => if (v == k) = true then 1 else 0)).sum = 1 := by
  intro keys
  induction keys with
  | nil => intro _ hv; cases hv
  | cons a keys ih =>
    intro hnd hv
    rcases List.mem_cons.mp hv with rfl | hv2
    · have hna : v ∉ keys := (List.nodup_cons.mp hnd).1
      simp only [List.map_cons, List.sum_cons, if_pos (beq_self_eq_true v),
        sum_indicator_zero v keys hna]
    · have hne : ¬ (v == a) = true := by
        simp only [beq_iff_eq]
        rintro rfl
        exact (List.nodup_cons.mp hnd).1 hv2
      simp only [List.map_cons, List.sum_cons, if_neg hne,
        ih (List.nodup_cons.mp hnd).2 hv2]

/-- Grouping a list by a key drawn from a duplicate-free complete key
list partitions its length. -/
theorem length_eq_sum_filter {α : Type} (g : α → String) (rs : List α) :
    ∀ (keys : List String), keys.Nodup → (∀ r ∈ rs, g r ∈ keys) →
    (keys.map (fun k => (rs.filter (fun r => g r == k)).length)).sum = rs.length := by
  induction rs with
  | nil => intro keys _ _; simp
  | cons r rs ih =>
    intro keys hnd h
    have h1 : ∀ k : String, ((r :: rs).filter (fun x => g x == k)).length
        = (if (g r == k) = true then 1 else 0) + (rs.filter (fun x => g x == k)).length := by
      intro k
      simp only [List.filter_cons]
      by_cases hc : (g r == k) = true
      · simp only [if_pos hc, List.length_cons]
        omega
      · simp only [if_neg hc, Nat.zero_add]
    simp only [h1]
    rw [sum_map_add_distrib, sum_indicator_one (g r) keys hnd (h r (List.mem_cons_self r rs)),
        ih keys hnd (fun x hx => h x (List.mem_cons_of_mem r hx))]
    simp only [List.length_cons]
    omega

theorem mem_ordDedupAux (x : String) : ∀ (l seen : List String),
    x ∈ ordDedupAux seen l ↔ (x ∈ l ∧ x ∉ seen) := by
  intro l
  induction l with
  | nil => intro seen; simp [ordDedupAux]
  | cons y r ih =>
    intro seen
    rw [ordDedupAux]
    by_cases hy : y ∈ seen
    · rw [if_pos (by simpa [List.contains] using hy), ih seen]
      constructor
      · rintro ⟨hx, hs⟩
        exact ⟨List.mem_cons_of_mem y hx, hs⟩
      · rintro ⟨hx, hs⟩
        rcases List.mem_cons.mp hx with rfl | hx2
        · exact absurd hy hs
        · exact ⟨hx2, hs⟩
    · rw [if_neg (by simpa [List.contains] using hy)]
      constructor
      · intro hm
        rcases List.mem_cons.mp hm with rfl | hm2
        · exact ⟨List.mem_cons_self x r, hy⟩
        · obtain ⟨hx, hs⟩ := (ih (y :: seen)).mp hm2
          exact ⟨List.mem_cons_of_mem y hx, fun hcon => hs (List.mem_cons_of_mem y hcon)⟩
      · rintro ⟨hx, hs⟩
        rcases List.mem_cons.mp hx with rfl | hx2
        · exact List.mem_cons_self x _
        · by_cases hxy : x = y
          · subst hxy; exact List.mem_cons_self x _
          · exact List.mem_cons_of_mem y ((ih (y :: seen)).mpr
              ⟨hx2, fun hcon => (List.mem_cons.mp hcon).elim hxy hs⟩)

theorem mem_ordDedup (x : String) (l : List String) : x ∈ ordDedup l ↔ x ∈ l := by
  rw [ordDedup, mem_ordDedupAux]
  simp

theorem nodup_ordDedupAux : ∀ (l seen : List String), (ordDedupAux seen l).Nodup := by
  intro l
  induction l with
  | nil => intro seen; simp [ordDedupAux]
  | cons y r ih =>
    intro seen
    rw [ordDedupAux]
    by_cases hy : (seen.contains y) = true
    · rw [if_pos hy]
      exact ih seen
    · rw [if_neg hy]
      refine List.nodup_cons.mpr ⟨fun hmem => ?_, ih (y :: seen)⟩
      exact ((mem_ordDedupAux y r (y :: seen)).mp hmem).2 (List.mem_cons_self y seen)

theorem nodup_ordDedup (l : List String) : (ordDedup l).Nodup := nodup_ordDedupAux l []

/-- The column sums of one pivot row: the row of unit `a` sums to the
number of records of unit `a`, provided the classifier is total on the
column list. -/
theorem row_sum_eq (rs : List ProcRecord) (f : ProcRecord → String) (cols : List String)
    (hnd : cols.Nodup) (hf : ∀ r ∈ rs, f r ∈ cols) (a : String) :
    (cols.map (fun c => cellCount rs f a c)).sum
      = (rs.filter (fun r => r.admin == a)).length := by
  have hcc : ∀ c : String, cellCount rs f a c
      = ((rs.filter (fun r => r.admin == a)).filter (fun r => f r == c)).length := by
    intro c
    rw [cellCount, List.filter_filter]
    exact congrArg List.length
      (List.filter_congr (fun r _ => Bool.and_comm (r.admin == a) (f r == c)))
  simp only [hcc]
  exact length_eq_sum_filter f (rs.filter (fun r => r.admin == a)) cols hnd
    (fun r hr => hf r (List.mem_of_mem_filter hr))

/-- The grand-total row of a pivot sums to the record count, provided
the classifier is total on the column list. -/
theorem pivot_total_sum (rs : List ProcRecord) (cols : List String) (f : ProcRecord → String)
    (hnd : cols.Nodup) (hf : ∀ r ∈ rs, f r ∈ cols) :
    (pivotOf rs cols f).total.sum = rs.length := by
  have hlen : ∀ v ∈ ((ordDedup (rs.map (fun r => r.admin))).map
      (fun a => (a, cols.map (fun c => cellCount rs f a c)))).map (fun row => row.2),
      v.length = cols.length := by
    intro v hv
    simp only [List.mem_map] at hv
    obtain ⟨row, ⟨a, _, rfl⟩, rfl⟩ := hv
    simp
  simp only [pivotOf]
  rw [foldl_zipWith_sum cols.length _ _ (List.length_replicate cols.length 0) hlen]
  have h2 : ((((ordDedup (rs.map (fun r => r.admin))).map
      (fun a => (a, cols.map (fun c => cellCount rs f a c)))).map (fun row => row.2)).map
      (fun v => v.sum))
      = (ordDedup (rs.map (fun r => r.admin))).map
          (fun a => (cols.map (fun c => cellCount rs f a c)).sum) := by
    rw [List.map_map, List.map_map]
    rfl
  rw [h2]
  have hsum : ∀ a ∈ ordDedup (rs.map (fun r => r.admin)),
      (cols.map (fun c => cellCount rs f a c)).sum
        = (rs.filter (fun r => r.admin == a)).length :=
    fun a _ => row_sum_eq rs f cols hnd hf a
  rw [List.map_congr_left hsum,
      length_eq_sum_filter (fun r => r.admin) rs (ordDedup (rs.map (fun r => r.admin)))
        (nodup_ordDedup _)
        (fun r hr => (mem_ordDedup _ _).mpr (List.mem_map_of_mem _ hr))]
  simp

theorem filter_partition_length {α : Type} (p : α → Bool) (l : List α) :
    (l.filter (fun a => !(p a))).length + (l.filter p).length = l.length := by
  induction l with
  | nil => simp
  | cons a l ih =>
    by_cases hc : p a = true
    · rw [List.filter_cons_of_pos hc, List.filter_cons_of_neg (by simp [hc])]
      simp only [List.length_cons]
      omega
    · rw [List.filter_cons_of_neg hc, List.filter_cons_of_pos (by simp [hc])]
      simp only [List.length_cons]
      omega

/-- Every surviving row's derived fields lie in the canonical sets. -/
theorem preprocess_field_mem {ts : Int} {rs : List RawRecord} :
    ∀ p ∈ preprocess ts rs,
      p.statusCanon ∈ STATUS_CANON ∧ p.sourceCanon ∈ ALLOWED_SOURCES ∧ p.sla ∈ SLA_ORDER := by
  intro p hp
  obtain ⟨r, _, hr⟩ := preprocess_mem hp
  obtain ⟨h1, h2, hpe⟩ := processOne_some_eq hr
  subst hpe
  exact ⟨h1, h2, slaOf_mem _⟩

/-! ## Claim C7 -/

/-- C7: for every pivot table produced by the aggregator (`pivotOf`,
which builds the status pivot, the SLA pivot and the non-empty channel
pivot), the appended grand-total row equals, in every column, the
column-wise sum of the non-total unit rows as of construction. -/
theorem c7_grand_total (rs : List ProcRecord) (cols : List String)
    (f : ProcRecord → String) (i : Nat) :
    (pivotOf rs cols f).total.getD i 0
      = ((pivotOf rs cols f).rows.map (fun row => row.2.getD i 0)).sum := by
  have hlen : ∀ v ∈ ((ordDedup (rs.map (fun r => r.admin))).map
      (fun a => (a, cols.map (fun c => cellCount rs f a c)))).map (fun row => row.2),
      v.length = cols.length := by
    intro v hv
    simp only [List.mem_map] at hv
    obtain ⟨row, ⟨a, _, rfl⟩, rfl⟩ := hv
    simp
  simp only [pivotOf]
  rw [foldl_zipWith_getD cols.length _ _ (List.length_replicate cols.length 0) hlen i,
      replicate_getD i cols.length, Nat.zero_add, List.map_map]
  rfl

/-- C7 witness: the theorem applied at a concrete pivot. -/
theorem c7_grand_total_witness :
    (pivotOf [pGood] STATUS_CANON (fun r => r.statusCanon)).total.getD 0 0
      = ((pivotOf [pGood] STATUS_CANON (fun r => r.statusCanon)).rows.map
          (fun row => row.2.getD 0 0)).sum :=
  c7_grand_total [pGood] STATUS_CANON (fun r => r.statusCanon) 0

/-! ## Claim C10 -/

/-- C10: the status pivot and the SLA pivot are built from exactly the
surviving records whose canonical source is not "Urbi" (`df_ar`), the
channel pivot from exactly those whose canonical source is "Urbi"
(`df_urbi`); the two parts partition the surviving records, and the two
non-channel pivots count every non-Urbi record exactly once (their
grand-total rows sum to the non-Urbi record count). -/
theorem c10_channel_partition (ts : Int) (rs : List RawRecord) :
    ((df_ar (preprocess ts rs)).length + (df_urbi (preprocess ts rs)).length
        = (preprocess ts rs).length)
    ∧ (∀ p : ProcRecord,
        p ∈ df_ar (preprocess ts rs) ↔ p ∈ preprocess ts rs ∧ p.sourceCanon ≠ "Urbi")
    ∧ (∀ p : ProcRecord,
        p ∈ df_urbi (preprocess ts rs) ↔ p ∈ preprocess ts rs ∧ p.sourceCanon = "Urbi")
    ∧ (p_open (df_ar (preprocess ts rs))).total.sum = (df_ar (preprocess ts rs)).length
    ∧ (p_sla (df_ar (preprocess ts rs))).total.sum = (df_ar (preprocess ts rs)).length := by
  refine ⟨filter_partition_length _ _, ?_, ?_, ?_, ?_⟩
  · intro p
    simp [df_ar, List.mem_filter]
  · intro p
    simp [df_urbi, List.mem_filter]
  · exact pivot_total_sum _ STATUS_CANON _ (by decide)
      (fun r hr => (preprocess_field_mem r (List.mem_of_mem_filter hr)).1)
  · exact pivot_total_sum _ SLA_ORDER _ (by decide)
      (fun r hr => (preprocess_field_mem r (List.mem_of_mem_filter hr)).2.2)

/-- C10 witness: the theorem applied at a concrete mixed-channel input. -/
theorem c10_channel_partition_witness :
    ((df_ar (preprocess 7200 [rGood, rUrbi])).length
        + (df_urbi (preprocess 7200 [rGood, rUrbi])).length
        = (preprocess 7200 [rGood, rUrbi]).length)
    ∧ (p_open (df_ar (preprocess 7200 [rGood, rUrbi]))).total.sum
        = (df_ar (preprocess 7200 [rGood, rUrbi])).length :=
  ⟨(c10_channel_partition 7200 [rGood, rUrbi]).1,
   (c10_channel_partition 7200 [rGood, rUrbi]).2.2.2.1⟩

/-! ## Normal-form lemmas for the canonicalizer (claim C8) -/

theorem noWsWs_cons₂ (x y : Char) (r : List Char) :
    noWsWs (x :: y :: r) = (!(isWsCh x && isWsCh y) && noWsWs (y :: r)) := rfl

theorem noPairOf_cons₂ (a b x y : Char) (r : List Char) :
    noPairOf a b (x :: y :: r) = (!(x == a && y == b) && noPairOf a b (y :: r)) := rfl

theorem lastNotWs_cons₂ (x y : Char) (r : List Char) :
    lastNotWs (x :: y :: r) = lastNotWs (y :: r) := rfl

theorem noWsWs_tail {x : Char} {l : List Char} (h : noWsWs (x :: l) = true) :
    noWsWs l = true := by
  cases l with
  | nil => rfl
  | cons y r =>
    rw [noWsWs_cons₂, Bool.and_eq_true] at h
    exact h.2

theorem noPairOf_tail {a b x : Char} {l : List Char} (h : noPairOf a b (x :: l) = true) :
    noPairOf a b l = true := by
  cases l with
  | nil => rfl
  | cons y r =>
    rw [noPairOf_cons₂, Bool.and_eq_true] at h
    exact h.2

theorem noPairOf_cons_head {a b x0 : Char} {X : List Char}
    (hhead : ∀ z, X.head? = some z → (x0 == a && z == b) = false)
    (hX : noPairOf a b X = true) : noPairOf a b (x0 :: X) = true := by
  cases X with
  | nil => rfl
  | cons z t =>
    rw [noPairOf_cons₂, hhead z rfl, hX]
    rfl

theorem noWsWs_cons_head {x0 : Char} {X : List Char}
    (hhead : ∀ z, X.head? = some z → (isWsCh x0 && isWsCh z) = false)
    (hX : noWsWs X = true) : noWsWs (x0 :: X) = true := by
  cases X with
  | nil => rfl
  | cons z t =>
    rw [noWsWs_cons₂, hhead z rfl, hX]
    rfl

theorem headNotWs_append {xs ys : List Char} (h : xs ≠ []) :
    headNotWs (xs ++ ys) = headNotWs xs := by
  cases xs with
  | nil => exact absurd rfl h
  | cons c r => rfl

theorem lastNotWs_eq_headNotWs_reverse : ∀ l : List Char, lastNotWs l = headNotWs l.reverse := by
  intro l
  induction l with
  | nil => rfl
  | cons c r ih =>
    cases r with
    | nil => rfl
    | cons d r2 =>
      rw [lastNotWs_cons₂, ih,
        show (c :: d :: r2).reverse = (d :: r2).reverse ++ [c] from by rw [List.reverse_cons],
        headNotWs_append (by simp)]

theorem dropLeadWs_eq_self {l : List Char} (h : headNotWs l = true) : dropLeadWs l = l := by
  cases l with
  | nil => rfl
  | cons c r =>
    have hc : isWsCh c = false := by simpa [headNotWs] using h
    simp [dropLeadWs, hc]

theorem dropTrailWs_eq_self {l : List Char} (h : lastNotWs l = true) : dropTrailWs l = l := by
  rw [lastNotWs_eq_headNotWs_reverse] at h
  rw [dropTrailWs, show l.reverse.dropWhile (fun c => isWsCh c) = l.reverse from
      dropLeadWs_eq_self h, List.reverse_reverse]

theorem stripCh_eq_self {l : List Char} (hh : headNotWs l = true) (hl : lastNotWs l = true) :
    stripCh l = l := by
  rw [stripCh, show dropLeadWs l = l from dropLeadWs_eq_self hh, dropTrailWs_eq_self hl]

theorem map_foldCh_eq_self {l : List Char} (h : noFoldables l = true) : l.map foldCh = l := by
  induction l with
  | nil => rfl
  | cons c r ih =>
    rw [noFoldables, List.all_cons, Bool.and_eq_true] at h
    rw [List.map_cons, ih h.2, beq_iff_eq.mp h.1]

theorem foldCh_out (c : Char) : foldCh c = 'ا' ∨ foldCh c = 'ي' ∨ foldCh c = 'ه' ∨ foldCh c = c := by
  unfold foldCh
  split_ifs <;> simp

theorem foldCh_idem (c : Char) : foldCh (foldCh c) = foldCh c := by
  rcases foldCh_out c with h | h | h | h <;> rw [h]
  · decide
  · decide
  · decide
  · exact h

theorem isWs_foldCh (c : Char) : isWsCh (foldCh c) = isWsCh c := by
  unfold foldCh
  split_ifs with h1 h2 h3 h4 h5
  · rw [beq_iff_eq.mp h1]
    decide
  · rw [beq_iff_eq.mp h2]
    decide
  · rw [beq_iff_eq.mp h3]
    decide
  · rw [beq_iff_eq.mp h4]
    decide
  · rw [beq_iff_eq.mp h5]
    decide
  · rfl

theorem noFoldables_map_foldCh (l : List Char) : noFoldables (l.map foldCh) = true := by
  rw [noFoldables, List.all_eq_true]
  intro c hc
  obtain ⟨d, _, rfl⟩ := List.mem_map.mp hc
  exact beq_iff_eq.mpr (foldCh_idem d)

theorem headNotWs_map_foldCh {l : List Char} (h : headNotWs l = true) :
    headNotWs (l.map foldCh) = true := by
  cases l with
  | nil => rfl
  | cons c r =>
    show (!isWsCh (foldCh c)) = true
    rw [isWs_foldCh]
    exact h

theorem lastNotWs_map_foldCh {l : List Char} (h : lastNotWs l = true) :
    lastNotWs (l.map foldCh) = true := by
  rw [lastNotWs_eq_headNotWs_reverse] at h ⊢
  rw [← List.map_reverse]
  exact headNotWs_map_foldCh h

theorem collapseAux_cons_ws {c : Char} (hc : isWsCh c = true) (r : List Char) :
    (collapseAux false (c :: r) = ' ' :: collapseAux true r)
    ∧ (collapseAux true (c :: r) = collapseAux true r) := by
  constructor <;> simp [collapseAux, hc]

theorem collapseAux_cons_nws {c : Char} (hc : isWsCh c = false) (b : Bool) (r : List Char) :
    collapseAux b (c :: r) = c :: collapseAux false r := by
  simp [collapseAux, hc]

theorem headNotWs_head? {X : List Char} {z : Char} (hh : headNotWs X = true)
    (hz : X.head? = some z) : isWsCh z = false := by
  cases X with
  | nil => cases hz
  | cons w t =>
    cases hz
    simpa [headNotWs] using hh

theorem wsOnlySpace_collapseAux : ∀ (l : List Char) (b : Bool),
    wsOnlySpace (collapseAux b l) = true := by
  intro l
  induction l with
  | nil => intro b; rfl
  | cons c r ih =>
    intro b
    by_cases hc : isWsCh c = true
    · cases b with
      | true =>
        rw [(collapseAux_cons_ws hc r).2]
        exact ih true
      | false =>
        rw [(collapseAux_cons_ws hc r).1, wsOnlySpace, List.all_cons]
        have := ih true
        rw [wsOnlySpace] at this
        rw [this]
        rfl
    · have hc2 : isWsCh c = false := by simpa using hc
      rw [collapseAux_cons_nws hc2 b r, wsOnlySpace, List.all_cons]
      have := ih false
      rw [wsOnlySpace] at this
      rw [this, hc2]
      rfl

theorem headNotWs_collapseAux_true : ∀ l : List Char,
    headNotWs (collapseAux true l) = true := by
  intro l
  induction l with
  | nil => rfl
  | cons c r ih =>
    by_cases hc : isWsCh c = true
    · rw [(collapseAux_cons_ws hc r).2]
      exact ih
    · have hc2 : isWsCh c = false := by simpa using hc
      rw [collapseAux_cons_nws hc2 true r]
      simpa [headNotWs] using hc2

theorem collapseAux_false_ne_nil (c : Char) (r : List Char) :
    collapseAux false (c :: r) ≠ [] := by
  by_cases hc : isWsCh c = true
  · rw [(collapseAux_cons_ws hc r).1]
    exact List.cons_ne_nil _ _
  · rw [collapseAux_cons_nws (by simpa using hc) false r]
    exact List.cons_ne_nil _ _

theorem collapseAux_true_nil_all_ws : ∀ l : List Char, collapseAux true l = [] →
    l.all (fun c => isWsCh c) = true := by
  intro l
  induction l with
  | nil => intro _; rfl
  | cons c r ih =>
    intro hnil
    by_cases hc : isWsCh c = true
    · rw [(collapseAux_cons_ws hc r).2] at hnil
      rw [List.all_cons, hc, ih hnil]
      rfl
    · rw [collapseAux_cons_nws (by simpa using hc) true r] at hnil
      cases hnil

theorem all_ws_lastNotWs_false : ∀ l : List Char, l ≠ [] →
    l.all (fun c => isWsCh c) = true → lastNotWs l = false := by
  intro l
  induction l with
  | nil => intro h _; exact absurd rfl h
  | cons c r ih =>
    intro _ hall
    rw [List.all_cons, Bool.and_eq_true] at hall
    cases r with
    | nil => simpa [lastNotWs] using hall.1
    | cons d r2 =>
      rw [lastNotWs_cons₂]
      exact ih (List.cons_ne_nil d r2) hall.2

theorem noWsWs_collapseAux : ∀ (l : List Char) (b : Bool),
    noWsWs (collapseAux b l) = true := by
  intro l
  induction l with
  | nil => intro b; rfl
  | cons c r ih =>
    intro b
    by_cases hc : isWsCh c = true
    · cases b with
      | true =>
        rw [(collapseAux_cons_ws hc r).2]
        exact ih true
      | false =>
        rw [(collapseAux_cons_ws hc r).1]
        refine noWsWs_cons_head (fun z hz => ?_) (ih true)
        rw [headNotWs_head? (headNotWs_collapseAux_true r) hz, Bool.and_false]
    · have hc2 : isWsCh c = false := by simpa using hc
      rw [collapseAux_cons_nws hc2 b r]
      refine noWsWs_cons_head (fun z hz => ?_) (ih false)
      rw [hc2, Bool.false_and]

theorem headNotWs_collapseAux_false {l : List Char} (h : headNotWs l = true) :
    headNotWs (collapseAux false l) = true := by
  cases l with
  | nil => rfl
  | cons c r =>
    have hc : isWsCh c = false := by simpa [headNotWs] using h
    rw [collapseAux_cons_nws hc false r]
    simpa [headNotWs] using hc

theorem lastNotWs_collapseAux : ∀ (l : List Char) (b : Bool), lastNotWs l = true →
    lastNotWs (collapseAux b l) = true := by
  intro l
  induction l with
  | nil => intro b _; cases b <;> rfl
  | cons c r ih =>
    intro b h
    cases r with
    | nil =>
      have hc : isWsCh c = false := by simpa [lastNotWs] using h
      rw [collapseAux_cons_nws hc b []]
      simpa [lastNotWs, collapseAux] using hc
    | cons d r2 =>
      rw [lastNotWs_cons₂] at h
      by_cases hc : isWsCh c = true
      · cases b with
        | true =>
          rw [(collapseAux_cons_ws hc (d :: r2)).2]
          exact ih true h
        | false =>
          rw [(collapseAux_cons_ws hc (d :: r2)).1]
          have hX : lastNotWs (collapseAux true (d :: r2)) = true := ih true h
          have hXne : collapseAux true (d :: r2) ≠ [] := by
            intro hnil
            have hall := collapseAux_true_nil_all_ws (d :: r2) hnil
            have hfalse := all_ws_lastNotWs_false (d :: r2) (List.cons_ne_nil d r2) hall
            rw [hfalse] at h
            cases h
          obtain ⟨z, t, hzt⟩ : ∃ z t, collapseAux true (d :: r2) = z :: t := by
            cases hcase : collapseAux true (d :: r2) with
            | nil => exact absurd hcase hXne
            | cons z t => exact ⟨z, t, rfl⟩
          rw [hzt, lastNotWs_cons₂, ← hzt]
          exact hX
      · have hc2 : isWsCh c = false := by simpa using hc
        rw [collapseAux_cons_nws hc2 b (d :: r2)]
        have hX : lastNotWs (collapseAux false (d :: r2)) = true := ih false h
        obtain ⟨z, t, hzt⟩ : ∃ z t, collapseAux false (d :: r2) = z :: t := by
          cases hcase : collapseAux false (d :: r2) with
          | nil => exact absurd hcase (collapseAux_false_ne_nil d r2)
          | cons z t => exact ⟨z, t, rfl⟩
        rw [hzt, lastNotWs_cons₂, ← hzt]
        exact hX

theorem collapseAux_eq_self : ∀ l : List Char, wsOnlySpace l = true → noWsWs l = true →
    (collapseAux false l = l ∧ (headNotWs l = true → collapseAux true l = l)) := by
  intro l
  induction l with
  | nil => exact fun _ _ => ⟨rfl, fun _ => rfl⟩
  | cons c r ih =>
    intro hws hnw
    have hwsr : wsOnlySpace r = true := by
      rw [wsOnlySpace, List.all_cons, Bool.and_eq_true] at hws
      exact hws.2
    obtain ⟨ih1, ih2⟩ := ih hwsr (noWsWs_tail hnw)
    constructor
    · by_cases hc : isWsCh c = true
      · have hcsp : c = ' ' := by
          rw [wsOnlySpace, List.all_cons, Bool.and_eq_true] at hws
          have h1 := hws.1
          rw [hc] at h1
          exact beq_iff_eq.mp (by simpa using h1)
        have hhr : headNotWs r = true := by
          cases r with
          | nil => rfl
          | cons d t =>
            rw [noWsWs_cons₂, Bool.and_eq_true, Bool.not_eq_true',
              Bool.and_eq_false_iff] at hnw
            rcases hnw.1 with h | h
            · rw [hc] at h
              cases h
            · simpa [headNotWs] using h
        rw [(collapseAux_cons_ws hc r).1, ih2 hhr, hcsp]
      · rw [collapseAux_cons_nws (by simpa using hc) false r, ih1]
    · intro hh
      have hc : isWsCh c = false := by simpa [headNotWs] using hh
      rw [collapseAux_cons_nws hc true r, ih1]

theorem replace2_cons₂_pos {a b c x y : Char} (h : (x == a && y == b) = true)
    (r : List Char) : replace2 a b c (x :: y :: r) = c :: replace2 a b c r := by
  rw [replace2, if_pos h]

theorem replace2_cons₂_neg {a b c x y : Char} (h : (x == a && y == b) = false)
    (r : List Char) : replace2 a b c (x :: y :: r) = x :: replace2 a b c (y :: r) := by
  rw [replace2, if_neg (by simp [h])]

theorem beq_space_eq_false {x : Char} (h : isWsCh x = false) : (x == ' ') = false := by
  by_cases hx : (x == ' ') = true
  · rw [beq_iff_eq.mp hx] at h
    exact absurd h (by decide)
  · simpa using hx

theorem replace2_all {P : Char → Bool} (a b c : Char) (hc : P c = true) :
    ∀ l : List Char, l.all P = true → (replace2 a b c l).all P = true := by
  intro l
  induction l using replace2.induct a b c with
  | case1 => intro _; rfl
  | case2 x => intro h; exact h
  | case3 x y r h ih =>
    intro hall
    rw [replace2_cons₂_pos h r, List.all_cons, hc,
      ih (by simp only [List.all_cons, Bool.and_eq_true] at hall; exact hall.2.2)]
    rfl
  | case4 x y r h ih =>
    intro hall
    simp only [List.all_cons, Bool.and_eq_true] at hall
    rw [replace2_cons₂_neg (by simpa using h) r, List.all_cons, hall.1,
      ih (by simp only [List.all_cons, Bool.and_eq_true]; exact ⟨hall.2.1, hall.2.2⟩)]
    rfl

theorem replace2_ne_nil {a b c : Char} : ∀ {l : List Char}, l ≠ [] →
    replace2 a b c l ≠ [] := by
  intro l hne
  cases l with
  | nil => exact absurd rfl hne
  | cons x r =>
    cases r with
    | nil => exact List.cons_ne_nil x []
    | cons y r2 =>
      by_cases h : (x == a && y == b) = true
      · rw [replace2_cons₂_pos h r2]
        exact List.cons_ne_nil _ _
      · rw [replace2_cons₂_neg (by simpa using h) r2]
        exact List.cons_ne_nil _ _

theorem replace2_head_cases (a b c : Char) (l : List Char) :
    (replace2 a b c l).head? = l.head? ∨
    ((replace2 a b c l).head? = some c ∧ l.head? = some a ∧ l.tail.head? = some b) := by
  cases l with
  | nil => exact Or.inl rfl
  | cons x r =>
    cases r with
    | nil => exact Or.inl rfl
    | cons y r2 =>
      by_cases h : (x == a && y == b) = true
      · rw [Bool.and_eq_true] at h
        refine Or.inr ⟨?_, ?_, ?_⟩
        · rw [replace2_cons₂_pos (by rw [Bool.and_eq_true]; exact h) r2]
          rfl
        · rw [List.head?_cons, beq_iff_eq.mp h.1]
        · rw [List.tail_cons, List.head?_cons, beq_iff_eq.mp h.2]
      · rw [replace2_cons₂_neg (by simpa using h) r2]
        exact Or.inl rfl

theorem headNotWs_replace2 {a b c : Char} (hc : isWsCh c = false) :
    ∀ {l : List Char}, headNotWs l = true → headNotWs (replace2 a b c l) = true := by
  intro l hh
  cases l with
  | nil => rfl
  | cons x r =>
    cases r with
    | nil => exact hh
    | cons y r2 =>
      by_cases h : (x == a && y == b) = true
      · rw [replace2_cons₂_pos h r2]
        simpa [headNotWs] using hc
      · rw [replace2_cons₂_neg (by simpa using h) r2]
        exact hh

theorem lastNotWs_replace2 {a b c : Char} (hc : isWsCh c = false) :
    ∀ l : List Char, lastNotWs l = true → lastNotWs (replace2 a b c l) = true := by
  intro l
  induction l using replace2.induct a b c with
  | case1 => intro _; rfl
  | case2 x => intro h; exact h
  | case3 x y r h ih =>
    intro hl
    rw [replace2_cons₂_pos h r]
    cases r with
    | nil => simpa [lastNotWs, replace2] using hc
    | cons d r2 =>
      have hlr : lastNotWs (d :: r2) = true := by
        rw [lastNotWs_cons₂, lastNotWs_cons₂] at hl
        exact hl
      have hX := ih hlr
      obtain ⟨z, t, hzt⟩ : ∃ z t, replace2 a b c (d :: r2) = z :: t := by
        cases hcase : replace2 a b c (d :: r2) with
        | nil => exact absurd hcase (replace2_ne_nil (List.cons_ne_nil d r2))
        | cons z t => exact ⟨z, t, rfl⟩
      rw [hzt, lastNotWs_cons₂, ← hzt]
      exact hX
  | case4 x y r h ih =>
    intro hl
    rw [replace2_cons₂_neg (by simpa using h) r]
    rw [lastNotWs_cons₂] at hl
    have hX := ih hl
    obtain ⟨z, t, hzt⟩ : ∃ z t, replace2 a b c (y :: r) = z :: t := by
      cases hcase : replace2 a b c (y :: r) with
      | nil => exact absurd hcase (replace2_ne_nil (List.cons_ne_nil y r))
      | cons z t => exact ⟨z, t, rfl⟩
    rw [hzt, lastNotWs_cons₂, ← hzt]
    exact hX

theorem noWsWs_replace2 {a b c : Char} (hc : isWsCh c = false) :
    ∀ l : List Char, noWsWs l = true → noWsWs (replace2 a b c l) = true := by
  intro l
  induction l using replace2.induct a b c with
  | case1 => intro _; rfl
  | case2 x => intro _; rfl
  | case3 x y r h ih =>
    intro hnw
    rw [replace2_cons₂_pos h r]
    refine noWsWs_cons_head (fun z hz => ?_) (ih (noWsWs_tail (noWsWs_tail hnw)))
    rw [hc, Bool.false_and]
  | case4 x y r h ih =>
    intro hnw
    rw [replace2_cons₂_neg (by simpa using h) r]
    refine noWsWs_cons_head (fun z hz => ?_) (ih (noWsWs_tail hnw))
    rcases replace2_head_cases a b c (y :: r) with hl | ⟨hl, _, _⟩
    · rw [hl, List.head?_cons] at hz
      cases hz
      rw [noWsWs_cons₂, Bool.and_eq_true, Bool.not_eq_true'] at hnw
      exact hnw.1
    · rw [hl] at hz
      cases hz
      rw [hc, Bool.and_false]

/-- The first dash fix removes every "space dash" occurrence. -/
theorem noPairOf_space_dash_replace2 : ∀ l : List Char, noWsWs l = true →
    noPairOf ' ' '-' (replace2 ' ' '-' '-' l) = true := by
  intro l
  induction l using replace2.induct ' ' '-' '-' with
  | case1 => intro _; rfl
  | case2 x => intro _; rfl
  | case3 x y r h ih =>
    intro hnw
    rw [replace2_cons₂_pos h r]
    refine noPairOf_cons_head (fun z hz => ?_) (ih (noWsWs_tail (noWsWs_tail hnw)))
    rw [show (('-' : Char) == ' ') = false from by decide, Bool.false_and]
  | case4 x y r h ih =>
    intro hnw
    rw [replace2_cons₂_neg (by simpa using h) r]
    refine noPairOf_cons_head (fun z hz => ?_) (ih (noWsWs_tail hnw))
    rcases replace2_head_cases ' ' '-' '-' (y :: r) with hl | ⟨hl, hl2, _⟩
    · rw [hl, List.head?_cons] at hz
      cases hz
      simpa using h
    · rw [hl] at hz
      cases hz
      rw [List.head?_cons] at hl2
      have hy : y = ' ' := Option.some.inj hl2
      rw [noWsWs_cons₂, Bool.and_eq_true, Bool.not_eq_true', Bool.and_eq_false_iff] at hnw
      rcases hnw.1 with hx | hyy
      · rw [beq_space_eq_false hx, Bool.false_and]
      · rw [hy] at hyy
        exact absurd hyy (by decide)

/-- The second dash fix removes every "dash space" occurrence. -/
theorem noPairOf_dash_space_replace2 : ∀ l : List Char, noWsWs l = true →
    noPairOf '-' ' ' (replace2 '-' ' ' '-' l) = true := by
  intro l
  induction l using replace2.induct '-' ' ' '-' with
  | case1 => intro _; rfl
  | case2 x => intro _; rfl
  | case3 x y r h ih =>
    intro hnw
    rw [replace2_cons₂_pos h r]
    refine noPairOf_cons_head (fun z hz => ?_) (ih (noWsWs_tail (noWsWs_tail hnw)))
    rcases replace2_head_cases '-' ' ' '-' r with hl | ⟨hl, _, _⟩
    · rw [hl] at hz
      cases r with
      | nil => cases hz
      | cons d r2 =>
        rw [List.head?_cons] at hz
        cases hz
        have hy : y = ' ' := by
          rw [Bool.and_eq_true] at h
          exact beq_iff_eq.mp h.2
        have hnw2 := noWsWs_tail hnw
        rw [noWsWs_cons₂, Bool.and_eq_true, Bool.not_eq_true',
          Bool.and_eq_false_iff] at hnw2
        rcases hnw2.1 with hyy | hd
        · rw [hy] at hyy
          exact absurd hyy (by decide)
        · rw [beq_space_eq_false hd, Bool.and_false]
    · rw [hl] at hz
      cases hz
      rw [show (('-' : Char) == ' ') = false from by decide, Bool.and_false]
  | case4 x y r h ih =>
    intro hnw
    rw [replace2_cons₂_neg (by simpa using h) r]
    refine noPairOf_cons_head (fun z hz => ?_) (ih (noWsWs_tail hnw))
    rcases replace2_head_cases '-' ' ' '-' (y :: r) with hl | ⟨hl, _, _⟩
    · rw [hl, List.head?_cons] at hz
      cases hz
      simpa using h
    · rw [hl] at hz
      cases hz
      rw [show (('-' : Char) == ' ') = false from by decide, Bool.and_false]

/-- The second dash fix cannot reintroduce a "space dash" occurrence. -/
theorem noPairOf_space_dash_preserved : ∀ l : List Char, noPairOf ' ' '-' l = true →
    noPairOf ' ' '-' (replace2 '-' ' ' '-' l) = true := by
  intro l
  induction l using replace2.induct '-' ' ' '-' with
  | case1 => intro _; rfl
  | case2 x => intro _; rfl
  | case3 x y r h ih =>
    intro hp
    rw [replace2_cons₂_pos h r]
    refine noPairOf_cons_head (fun z hz => ?_) (ih (noPairOf_tail (noPairOf_tail hp)))
    rw [show (('-' : Char) == ' ') = false from by decide, Bool.false_and]
  | case4 x y r h ih =>
    intro hp
    rw [replace2_cons₂_neg (by simpa using h) r]
    refine noPairOf_cons_head (fun z hz => ?_) (ih (noPairOf_tail hp))
    rcases replace2_head_cases '-' ' ' '-' (y :: r) with hl | ⟨hl, hl2, _⟩
    · rw [hl, List.head?_cons] at hz
      cases hz
      rw [noPairOf_cons₂, Bool.and_eq_true, Bool.not_eq_true'] at hp
      exact hp.1
    · rw [hl] at hz
      cases hz
      rw [List.head?_cons] at hl2
      have hy : y = '-' := Option.some.inj hl2
      rw [noPairOf_cons₂, Bool.and_eq_true, Bool.not_eq_true',
        Bool.and_eq_false_iff] at hp
      rcases hp.1 with hx | hyy
      · rw [hx, Bool.false_and]
      · rw [hy] at hyy
        exact absurd hyy (by decide)

/-- `replace2` is the identity on pattern-free lists. -/
theorem replace2_eq_self {a b c : Char} : ∀ l : List Char, noPairOf a b l = true →
    replace2 a b c l = l := by
  intro l
  induction l using replace2.induct a b c with
  | case1 => intro _; rfl
  | case2 x => intro _; rfl
  | case3 x y r h ih =>
    intro hp
    rw [noPairOf_cons₂, Bool.and_eq_true, Bool.not_eq_true'] at hp
    rw [h] at hp
    exact absurd hp.1 (by decide)
  | case4 x y r h ih =>
    intro hp
    rw [replace2_cons₂_neg (by simpa using h) r, ih (noPairOf_tail hp)]

theorem headNotWs_dropWhileWs : ∀ l : List Char,
    headNotWs (l.dropWhile (fun c => isWsCh c)) = true := by
  intro l
  induction l with
  | nil => rfl
  | cons c r ih =>
    by_cases hc : isWsCh c = true
    · rw [List.dropWhile_cons_of_pos hc]
      exact ih
    · rw [List.dropWhile_cons_of_neg (by simpa using hc)]
      simpa [headNotWs] using hc

theorem headNotWs_of_isPre {pre m : List Char} (hpre : pre <+: m)
    (hm : headNotWs m = true) : headNotWs pre = true := by
  obtain ⟨t, rfl⟩ := hpre
  cases pre with
  | nil => rfl
  | cons c r => exact hm

theorem dropTrailWs_isPre (m : List Char) : dropTrailWs m <+: m := by
  have hs : m.reverse.dropWhile (fun c => isWsCh c) <:+ m.reverse :=
    List.dropWhile_suffix _
  have := List.reverse_prefix.mpr hs
  rw [List.reverse_reverse] at this
  exact this

theorem headNotWs_stripCh (l : List Char) : headNotWs (stripCh l) = true :=
  headNotWs_of_isPre (dropTrailWs_isPre (dropLeadWs l)) (headNotWs_dropWhileWs l)

theorem lastNotWs_stripCh (l : List Char) : lastNotWs (stripCh l) = true := by
  rw [lastNotWs_eq_headNotWs_reverse, stripCh, dropTrailWs, List.reverse_reverse]
  exact headNotWs_dropWhileWs _

theorem collapseAux_all {P : Char → Bool} (hsp : P ' ' = true) :
    ∀ (l : List Char) (b : Bool), l.all P = true → (collapseAux b l).all P = true := by
  intro l
  induction l with
  | nil => intro b _; rfl
  | cons c r ih =>
    intro b hall
    rw [List.all_cons, Bool.and_eq_true] at hall
    by_cases hc : isWsCh c = true
    · cases b with
      | true =>
        rw [(collapseAux_cons_ws hc r).2]
        exact ih true hall.2
      | false =>
        rw [(collapseAux_cons_ws hc r).1, List.all_cons, hsp, ih true hall.2]
        rfl
    · rw [collapseAux_cons_nws (by simpa using hc) b r, List.all_cons, hall.1,
        ih false hall.2]
      rfl

/-- Every `normList` output satisfies the normal-form invariant. -/
theorem normList_normalized (l : List Char) : normalizedP (normList l) = true := by
  have h1h : headNotWs ((stripCh l).map foldCh) = true :=
    headNotWs_map_foldCh (headNotWs_stripCh l)
  have h1l : lastNotWs ((stripCh l).map foldCh) = true :=
    lastNotWs_map_foldCh (lastNotWs_stripCh l)
  have h1f : noFoldables ((stripCh l).map foldCh) = true := noFoldables_map_foldCh _
  have h2f : noFoldables (collapseWs ((stripCh l).map foldCh)) = true := by
    rw [collapseWs]
    exact collapseAux_all (by decide) _ false h1f
  have h2ws : wsOnlySpace (collapseWs ((stripCh l).map foldCh)) = true :=
    wsOnlySpace_collapseAux _ false
  have h2nw : noWsWs (collapseWs ((stripCh l).map foldCh)) = true :=
    noWsWs_collapseAux _ false
  have h2h : headNotWs (collapseWs ((stripCh l).map foldCh)) = true :=
    headNotWs_collapseAux_false h1h
  have h2l : lastNotWs (collapseWs ((stripCh l).map foldCh)) = true :=
    lastNotWs_collapseAux _ false h1l
  have h3f : noFoldables (replace2 ' ' '-' '-' (collapseWs ((stripCh l).map foldCh))) = true :=
    replace2_all ' ' '-' '-' (by decide) _ h2f
  have h3ws : wsOnlySpace (replace2 ' ' '-' '-' (collapseWs ((stripCh l).map foldCh))) = true :=
    replace2_all ' ' '-' '-' (by decide) _ h2ws
  have h3nw : noWsWs (replace2 ' ' '-' '-' (collapseWs ((stripCh l).map foldCh))) = true :=
    noWsWs_replace2 (by decide) _ h2nw
  have h3h : headNotWs (replace2 ' ' '-' '-' (collapseWs ((stripCh l).map foldCh))) = true :=
    headNotWs_replace2 (by decide) h2h
  have h3l : lastNotWs (replace2 ' ' '-' '-' (collapseWs ((stripCh l).map foldCh))) = true :=
    lastNotWs_replace2 (by decide) _ h2l
  have h3p1 : noPairOf ' ' '-'
      (replace2 ' ' '-' '-' (collapseWs ((stripCh l).map foldCh))) = true :=
    noPairOf_space_dash_replace2 _ h2nw
  rw [normalizedP, normList]
  simp only [Bool.and_eq_true]
  exact ⟨⟨⟨⟨⟨⟨replace2_all '-' ' ' '-' (by decide) _ h3f,
    replace2_all '-' ' ' '-' (by decide) _ h3ws⟩,
    noWsWs_replace2 (by decide) _ h3nw⟩,
    noPairOf_space_dash_preserved _ h3p1⟩,
    noPairOf_dash_space_replace2 _ h3nw⟩,
    headNotWs_replace2 (by decide) h3h⟩,
    lastNotWs_replace2 (by decide) _ h3l⟩

/-- `normList` is the identity on lists in normal form. -/
theorem normList_eq_self {l : List Char} (h : normalizedP l = true) : normList l = l := by
  rw [normalizedP] at h
  simp only [Bool.and_eq_true] at h
  obtain ⟨⟨⟨⟨⟨⟨hf, hws⟩, hnw⟩, hp1⟩, hp2⟩, hh⟩, hl⟩ := h
  rw [normList, stripCh_eq_self hh hl, map_foldCh_eq_self hf, collapseWs,
      (collapseAux_eq_self l hws hnw).1, replace2_eq_self l hp1, replace2_eq_self l hp2]

/-! ## Claim C8 -/

/-- C8: the text canonicalizer `_norm_ar` is idempotent — for every
input string, normalizing an already-normalized string yields the same
string. -/
theorem c8_normalize_idempotent (s : String) : norm_ar (norm_ar s) = norm_ar s := by
  unfold norm_ar
  rw [show (String.mk (normList s.data)).data = normList s.data from rfl,
      normList_eq_self (normList_normalized s.data)]

/-! ## Membership in the Admin-Name Matcher result -/

theorem mem_pickOrdered (x : String) (ms : List String) : ∀ (l seen : List String),
    x ∈ pickOrdered ms seen l ↔ (x ∈ l ∧ x ∈ ms ∧ x ∉ seen) := by
  intro l
  induction l with
  | nil => intro seen; simp [pickOrdered]
  | cons y r ih =>
    intro seen
    rw [pickOrdered]
    by_cases hcond : (ms.contains y && !(seen.contains y)) = true
    · rw [if_pos hcond]
      rw [Bool.and_eq_true, Bool.not_eq_true'] at hcond
      have hyms : y ∈ ms := by simpa using hcond.1
      have hyseen : y ∉ seen := by simpa using hcond.2
      constructor
      · intro hm
        rcases List.mem_cons.mp hm with rfl | hm2
        · exact ⟨List.mem_cons_self x r, hyms, hyseen⟩
        · obtain ⟨hr, hms, hs⟩ := (ih (y :: seen)).mp hm2
          exact ⟨List.mem_cons_of_mem y hr, hms, fun hx => hs (List.mem_cons_of_mem y hx)⟩
      · rintro ⟨hx, hms, hs⟩
        rcases List.mem_cons.mp hx with rfl | hx2
        · exact List.mem_cons_self x _
        · by_cases hxy : x = y
          · subst hxy
            exact List.mem_cons_self x _
          · exact List.mem_cons_of_mem y ((ih (y :: seen)).mpr
              ⟨hx2, hms, fun hc => (List.mem_cons.mp hc).elim hxy hs⟩)
    · rw [if_neg hcond, ih seen]
      have hcf : (ms.contains y && !(seen.contains y)) = false := by simpa using hcond
      rw [Bool.and_eq_false_iff] at hcf
      constructor
      · rintro ⟨hr, hms, hs⟩
        exact ⟨List.mem_cons_of_mem y hr, hms, hs⟩
      · rintro ⟨hx, hms, hs⟩
        rcases List.mem_cons.mp hx with rfl | hx2
        · exfalso
          rcases hcf with hc | hc
          · have : x ∉ ms := by simpa using hc
            exact this hms
          · rw [Bool.not_eq_false'] at hc
            have : x ∈ seen := by simpa using hc
            exact hs this
        · exact ⟨hx2, hms, hs⟩

/-- Characterization of the matcher output: a candidate is returned iff
it occurs among the candidates and the loop body accepts it. -/
theorem mem_match_admin (q name : String) (cands : List String) :
    name ∈ match_admin_indices q cands ↔
      (name ∈ cands
        ∧ matchNameB (normList q.data) (keywordsL (normList q.data)) name.data = true) := by
  rw [match_admin_indices, mem_pickOrdered]
  constructor
  · rintro ⟨hc, hms, _⟩
    have := List.mem_filter.mp hms
    exact ⟨hc, this.2⟩
  · rintro ⟨hc, hpred⟩
    exact ⟨hc, List.mem_filter.mpr ⟨hc, hpred⟩, List.not_mem_nil name⟩

/-! ## Claim C4 -/

/-- C4 (counterexample): an exact normalized match does not return
"exactly that one candidate and no other" — a second candidate whose
keyword set is included in the query's is returned as well; moreover a
query triggering the municipality-plus-direction rule returns an
identical candidate not at all when that candidate lacks the rule's
keywords. -/
theorem c4_counterexample :
    ("مكتب الطرق" : String) ∈ (["مكتب الطرق", "المكتب"] : List String)
    ∧ match_admin_indices "مكتب الطرق" ["مكتب الطرق", "المكتب"] = ["مكتب الطرق", "المكتب"]
    ∧ match_admin_indices "مكتب الطرق" ["مكتب الطرق", "المكتب"] ≠ ["مكتب الطرق"]
    ∧ match_admin_indices "بلديه جنوب" ["بلديه جنوب"] = [] := by
  refine ⟨by decide, by decide, by decide, by decide⟩

/-- C4 (amended): when the query does not trigger the
municipality-plus-direction rule, a candidate identical to the query
after normalization is among the returned candidates (other candidates
may be returned as well); under that rule an identical candidate is
returned only if it satisfies the rule's own candidate condition. -/
theorem c4_exact_match (q name : String) (cands : List String)
    (hmem : name ∈ cands)
    (hnorm : normList name.data = normList q.data)
    (hmuni : muniTrigB (normList q.data) = false) :
    name ∈ match_admin_indices q cands := by
  rw [mem_match_admin]
  refine ⟨hmem, ?_⟩
  rw [matchNameB, if_neg (by simp [hmuni])]
  split
  · rfl
  split
  · rfl
  split
  · rfl
  split
  · rfl
  rw [genericB, hnorm, beq_self_eq_true]
  simp

/-- C4 witness: the amended theorem applied at a concrete exact match. -/
theorem c4_exact_match_witness : ("مكتب" : String) ∈ match_admin_indices "مكتب" ["مكتب"] :=
  c4_exact_match "مكتب" "مكتب" ["مكتب"] (by decide) rfl (by decide)

/-! ## Claim C5 -/

/-- C5 (counterexample): the "general cleanliness department" rule's
trigger holds on the query, the candidate fails that rule's candidate
condition, yet the candidate is still matched — through the generic
keyword-set fallback, which the claim says must not be applied. -/
theorem c5_counterexample :
    mainCleanTrigB (normList "ادارة النظافة العامة".data) = true
    ∧ hasSubCh "النظافه".data (normList "نظافه".data) = false
    ∧ hasSubCh "النظافة".data (normList "نظافه".data) = false
    ∧ match_admin_indices "ادارة النظافة العامة" ["نظافه"] = ["نظافه"] := by
  refine ⟨by decide, by decide, by decide, by decide⟩

/-- C5 (amended): only the municipality-plus-direction rule is
exclusive — when it triggers, a candidate matches exactly through that
rule's candidate condition and the generic fallback is never applied;
for the other special-case rules a candidate failing the rule's
candidate condition falls through, and the generic fallback (exact
normalized equality, keyword-set equality or inclusion) still applies. -/
theorem c5_special_rules (q name : String) (cands : List String) :
    (muniTrigB (normList q.data) = true →
      (name ∈ match_admin_indices q cands ↔
        (name ∈ cands ∧ muniCandB (normList q.data) (normList name.data) = true)))
    ∧ (muniTrigB (normList q.data) = false → name ∈ cands →
        genericB (normList q.data) (normList name.data)
          (keywordsL (normList q.data)) (keywordsL (normList name.data)) = true →
        name ∈ match_admin_indices q cands) := by
  constructor
  · intro hm
    rw [mem_match_admin,
      show matchNameB (normList q.data) (keywordsL (normList q.data)) name.data
          = muniCandB (normList q.data) (normList name.data) from by
        rw [matchNameB, if_pos hm]]
  · intro hm hmem hgen
    rw [mem_match_admin]
    refine ⟨hmem, ?_⟩
    rw [matchNameB, if_neg (by simp [hm])]
    split
    · rfl
    split
    · rfl
    split
    · rfl
    split
    · rfl
    exact hgen

/-- C5 witness: the amended theorem applied under the exclusive
municipality rule and under a non-exclusive trigger with a generic
keyword match. -/
theorem c5_special_rules_witness :
    ("جنوب تعمير" : String) ∈ match_admin_indices "بلديه جنوب" ["جنوب تعمير"]
    ∧ ("نظافه" : String) ∈ match_admin_indices "ادارة النظافة العامة" ["نظافه"] :=
  ⟨((c5_special_rules "بلديه جنوب" "جنوب تعمير" ["جنوب تعمير"]).1 (by decide)).mpr
      ⟨by decide, by decide⟩,
   (c5_special_rules "ادارة النظافة العامة" "نظافه" ["نظافه"]).2
      (by decide) (by decide) (by decide)⟩

end Etmam
